import Mathlib

/-!
Verification of the Robin Hood hash map in `src/robin_hood_hash_map.rs`.

The Rust code is shallowly embedded here: keys and values are `Nat`, the
hash function is an explicit parameter `h : Nat → Nat` (the source treats
hashing as an injected capability: any deterministic function into machine
integers), and the unbounded `loop` in `insert` as well as the
backward-shift loop in `delete` are modelled with an explicit fuel
parameter, where a `none` result means the fuel was exhausted (the loop did
not return within that many iterations).
-/

set_option autoImplicit false

namespace RobinHood

/-- `Bucket<K, V>` from the source: a key, a value and a probe-sequence
length, with `K = V = Nat`. -/
structure Bucket where
  key : Nat
  value : Nat
  probe_length : Nat
deriving DecidableEq, Repr

/-- `RobinHashMap<K, V>` from the source: the slot array, the high-water
probe-length mark `max_psl` and the fixed `capacity`. -/
structure RobinHashMap where
  array : List (Option Bucket)
  max_psl : Nat
  capacity : Nat
deriving DecidableEq, Repr

/-- Slot access: the source indexes `self.array[index]`; all indices that
actually occur are in bounds, so a default of `none` is never consulted for
well-formed states. -/
def slotAt (a : List (Option Bucket)) (i : Nat) : Option Bucket :=
  a.getD i none

/-- `RobinHashMap::new`: `capacity` empty slots, `max_psl = 0`. The source
performs no validity check on `capacity`. -/
def new (capacity : Nat) : RobinHashMap :=
  { array := List.replicate capacity none, max_psl := 0, capacity := capacity }

/-- The body of `RobinHashMap::insert`'s `loop`, with fuel.  `inc` is the
`incoming` bucket, `idx` the current index.  Returns `none` when the fuel
runs out before the loop returns (the source loop is unbounded), otherwise
`some (m', r)` with the updated map and the value the Rust function
returns. -/
def insertLoop (h : Nat → Nat) : Nat → Nat → Bucket → RobinHashMap →
    Option (RobinHashMap × Option Bucket)
  | 0, _, _, _ => none
  | fuel + 1, idx, inc, m =>
    match slotAt m.array idx with
    | none =>
        some ({ m with
                  max_psl := Nat.max m.max_psl inc.probe_length,
                  array := m.array.set idx (some inc) },
              none)
    | some b =>
        if b.key = inc.key then
          some ({ m with array := m.array.set idx (some { b with value := inc.value }) },
                some { inc with value := b.value })
        else if b.probe_length < inc.probe_length then
          insertLoop h fuel ((idx + 1) % m.capacity)
            { b with probe_length := b.probe_length + 1 }
            { m with array := m.array.set idx (some inc) }
        else
          insertLoop h fuel ((idx + 1) % m.capacity)
            { inc with probe_length := inc.probe_length + 1 } m

/-- `RobinHashMap::insert`: start at the home index with an incoming bucket
of probe length 1. -/
def insert (h : Nat → Nat) (m : RobinHashMap) (key value : Nat) (fuel : Nat) :
    Option (RobinHashMap × Option Bucket) :=
  insertLoop h fuel (h key % m.capacity) { key := key, value := value, probe_length := 1 } m

/-- The `while psl <= max_psl` lookup walk of `RobinHashMap::get`; the fuel
is the number of remaining permitted iterations, `m.max_psl + 1 - psl`. -/
def getAux (m : RobinHashMap) (key : Nat) : Nat → Nat → Nat → Option Nat
  | 0, _, _ => none
  | fuel + 1, idx, psl =>
    match slotAt m.array idx with
    | none => none
    | some b =>
        if b.key = key then some b.value
        else if b.probe_length < psl then none
        else getAux m key fuel ((idx + 1) % m.capacity) (psl + 1)

/-- `RobinHashMap::get`. -/
def get (h : Nat → Nat) (m : RobinHashMap) (key : Nat) : Option Nat :=
  getAux m key m.max_psl (h key % m.capacity) 1

/-- The lookup walk of `RobinHashMap::contains`, structurally identical to
`getAux` but returning a Bool. -/
def containsAux (m : RobinHashMap) (key : Nat) : Nat → Nat → Nat → Bool
  | 0, _, _ => false
  | fuel + 1, idx, psl =>
    match slotAt m.array idx with
    | none => false
    | some b =>
        if b.key = key then true
        else if b.probe_length < psl then false
        else containsAux m key fuel ((idx + 1) % m.capacity) (psl + 1)

/-- `RobinHashMap::contains`. -/
def contains (h : Nat → Nat) (m : RobinHashMap) (key : Nat) : Bool :=
  containsAux m key m.max_psl (h key % m.capacity) 1

/-- Phase 1 of `RobinHashMap::delete`: the same walk as `get`, returning
the index at which the key was found. -/
def findAux (m : RobinHashMap) (key : Nat) : Nat → Nat → Nat → Option Nat
  | 0, _, _ => none
  | fuel + 1, idx, psl =>
    match slotAt m.array idx with
    | none => none
    | some b =>
        if b.key = key then some idx
        else if b.probe_length < psl then none
        else findAux m key fuel ((idx + 1) % m.capacity) (psl + 1)

/-- Phase 2 of `RobinHashMap::delete`: the backward shift.  Starting from
the freed slot `e`, repeatedly move the next bucket one slot back and
decrement its probe length, stopping at an empty slot or a bucket with
probe length 1.  The source loop is unbounded, hence the fuel. -/
def shiftAux (cap : Nat) : Nat → List (Option Bucket) → Nat → Option (List (Option Bucket))
  | 0, _, _ => none
  | fuel + 1, a, e =>
    let next := (e + 1) % cap
    match slotAt a next with
    | none => some a
    | some b =>
        if b.probe_length = 1 then some a
        else shiftAux cap fuel
          ((a.set e (some { b with probe_length := b.probe_length - 1 })).set next none)
          next

/-- `RobinHashMap::delete`: find the key, take the bucket out, backward
shift.  Fuel only limits the (source-unbounded) shift loop. -/
def delete (h : Nat → Nat) (m : RobinHashMap) (key : Nat) (fuel : Nat) :
    Option (RobinHashMap × Option Nat) :=
  match findAux m key m.max_psl (h key % m.capacity) 1 with
  | none => some (m, none)
  | some idx =>
    match slotAt m.array idx with
    | none => none
    | some removed =>
      match shiftAux m.capacity fuel (m.array.set idx none) idx with
      | none => none
      | some a => some ({ m with array := a }, some removed.value)

/-- Number of occupied slots. -/
def occupiedCount (m : RobinHashMap) : Nat :=
  m.array.countP fun s => s.isSome

/-- Invariant I1 of the spec: every occupied slot's stored probe length is
one more than its forward distance (with wraparound) from its key's home
index `h key % cap`. -/
def AI1 (h : Nat → Nat) (cap : Nat) (a : List (Option Bucket)) : Prop :=
  ∀ i, i < cap → ∀ b, slotAt a i = some b →
    b.probe_length = (i + cap - h b.key % cap) % cap + 1

/-- Invariant I3 of the spec (Robin Hood ordering), in pointwise form: a
bucket with probe length at least 2 has an occupied predecessor slot whose
probe length is at least one less. -/
def AI3 (cap : Nat) (a : List (Option Bucket)) : Prop :=
  ∀ i, i < cap → ∀ b, slotAt a i = some b → 2 ≤ b.probe_length →
    ∃ b2, slotAt a ((i + cap - 1) % cap) = some b2 ∧
      b.probe_length ≤ b2.probe_length + 1

/-- No two occupied slots hold the same key. -/
def DistinctKeys (a : List (Option Bucket)) : Prop :=
  ∀ i j, i ≠ j → ∀ b b2, slotAt a i = some b → slotAt a j = some b2 →
    b.key ≠ b2.key

/-- The inductive invariant of reachable states: well-formedness (the array
really has `capacity` slots and the capacity is positive), I1, the Robin
Hood ordering and key distinctness.  Note that no property of `max_psl` is
included: the code does not maintain one (see the `c2` theorems). -/
def Inv (h : Nat → Nat) (m : RobinHashMap) : Prop :=
  m.array.length = m.capacity ∧ 0 < m.capacity ∧
    AI1 h m.capacity m.array ∧ AI3 m.capacity m.array ∧ DistinctKeys m.array

/-- States reachable from `new capacity` (capacity positive) by completed
`insert` and `delete` operations.  An operation completes when its
(source-unbounded) loop returns within some finite number of iterations,
i.e. when some fuel suffices. -/
inductive Reachable (h : Nat → Nat) : RobinHashMap → Prop where
  | init : ∀ cap, 0 < cap → Reachable h (new cap)
  | step_insert : ∀ m k v fuel m2 r, Reachable h m →
      insert h m k v fuel = some (m2, r) → Reachable h m2
  | step_delete : ∀ m k fuel m2 r, Reachable h m →
      delete h m k fuel = some (m2, r) → Reachable h m2

/-! Concrete states used by the counterexamples.  With the identity hash
and capacity 8, the keys 0, 8 and 16 share home index 0 and key 2 has home
index 2.  Inserting (0,10), (8,20), (2,40), (16,30) in this order makes the
insert of 16 displace the resident bucket of key 2 (Robin Hood swap): 16 is
written to slot 2 with probe length 3 by the displacement branch, which
does not update `max_psl`, so `max_psl` stays 2. -/

/-- State after inserting (0,10) into `new 8`. -/
def mBug1 : RobinHashMap :=
  { array := [some ⟨0, 10, 1⟩, none, none, none, none, none, none, none],
    max_psl := 1, capacity := 8 }

/-- State after additionally inserting (8,20). -/
def mBug2 : RobinHashMap :=
  { array := [some ⟨0, 10, 1⟩, some ⟨8, 20, 2⟩, none, none, none, none, none, none],
    max_psl := 2, capacity := 8 }

/-- State after additionally inserting (2,40). -/
def mBug3 : RobinHashMap :=
  { array := [some ⟨0, 10, 1⟩, some ⟨8, 20, 2⟩, some ⟨2, 40, 1⟩, none, none, none, none, none],
    max_psl := 2, capacity := 8 }

/-- State after additionally inserting (16,30): slot 2 holds key 16 with
probe length 3, yet `max_psl = 2`. -/
def mBug : RobinHashMap :=
  { array := [some ⟨0, 10, 1⟩, some ⟨8, 20, 2⟩, some ⟨16, 30, 3⟩, some ⟨2, 40, 2⟩,
              none, none, none, none],
    max_psl := 2, capacity := 8 }

/-- State after deleting key 0 from `mBug`: the backward shift pulls key 16
down to probe length 2, making it visible to `get` again. -/
def mBugShifted : RobinHashMap :=
  { array := [some ⟨8, 20, 1⟩, some ⟨16, 30, 2⟩, some ⟨2, 40, 1⟩,
              none, none, none, none, none],
    max_psl := 2, capacity := 8 }

/-- State after re-inserting key 16 with value 99 into `mBug`: the insert
walk (which is not bounded by `max_psl`) reaches the stored bucket and
swaps the value in place, but the bucket stays at probe length 3, above
`max_psl = 2`, so `get 16` still fails. -/
def mBugUpd : RobinHashMap :=
  { array := [some ⟨0, 10, 1⟩, some ⟨8, 20, 2⟩, some ⟨16, 99, 3⟩, some ⟨2, 40, 2⟩,
              none, none, none, none],
    max_psl := 2, capacity := 8 }

/-- A full capacity-1 table holding key 0, used for the full-table insert
divergence. -/
def mFull1 : RobinHashMap :=
  { array := [some ⟨0, 10, 1⟩], max_psl := 1, capacity := 1 }

/-- A full capacity-3 state in which key 0 is present (at slot 2 with probe
length 3) but the Robin Hood ordering invariant I3 does not hold: slot 1
still has probe length 1.  Not reachable; used as the C8 counterexample:
inserting key 0 here swaps before reaching slot 2 and does not return
within `capacity` iterations. -/
def mC8 : RobinHashMap :=
  { array := [some ⟨1, 11, 1⟩, some ⟨2, 12, 1⟩, some ⟨0, 13, 3⟩],
    max_psl := 3, capacity := 3 }

/-! ## Basic lemmas about slots and modular index arithmetic -/

theorem slotAt_lt_length {a : List (Option Bucket)} {i : Nat} {b : Bucket}
    (hb : slotAt a i = some b) : i < a.length := by
  by_contra hge
  rw [slotAt, List.getD_eq_getElem?_getD, List.getElem?_eq_none (by omega)] at hb
  simp at hb

theorem slotAt_set_self (a : List (Option Bucket)) (i : Nat) (x : Option Bucket)
    (hi : i < a.length) : slotAt (a.set i x) i = x := by
  rw [slotAt, List.getD_eq_getElem?_getD, List.getElem?_set_self hi]
  rfl

theorem slotAt_set_ne (a : List (Option Bucket)) {i j : Nat} (x : Option Bucket)
    (hij : i ≠ j) : slotAt (a.set i x) j = slotAt a j := by
  rw [slotAt, slotAt, List.getD_eq_getElem?_getD, List.getD_eq_getElem?_getD,
    List.getElem?_set_ne hij]

theorem mod_add_cancel {cap a : Nat} (ha : a < cap) : (a + cap) % cap = a := by
  rw [Nat.add_mod_right]
  exact Nat.mod_eq_of_lt ha

theorem off_step {cap hm : Nat} (hhm : hm ≤ cap) (i : Nat) :
    ((i + 1) % cap + cap - hm) % cap = ((i + cap - hm) % cap + 1) % cap := by
  have h1 : (i + 1) % cap + cap - hm = (i + 1) % cap + (cap - hm) := by omega
  rw [h1, Nat.mod_add_mod, Nat.mod_add_mod]
  congr 1
  omega

theorem off_back {cap i j : Nat} (hj : j + 1 ≤ cap) :
    ((i + cap - j) % cap + cap - 1) % cap = (i + cap - (j + 1)) % cap := by
  have h1 : (i + cap - j) % cap + cap - 1 = (i + cap - j) % cap + (cap - 1) := by omega
  rw [h1, Nat.mod_add_mod]
  have h2 : i + cap - j + (cap - 1) = (i + cap - (j + 1)) + cap := by omega
  rw [h2, Nat.add_mod_right]

theorem off_cancel {cap a : Nat} (t : Nat) (ha : a < cap) (ht : t ≤ cap) :
    ((a + t) % cap + cap - t) % cap = a := by
  have h1 : (a + t) % cap + cap - t = (a + t) % cap + (cap - t) := by omega
  rw [h1, Nat.mod_add_mod]
  have h2 : a + t + (cap - t) = a + cap := by omega
  rw [h2, mod_add_cancel ha]

theorem off_elim {cap a b : Nat} (ha : a < cap) (hb : b < cap) :
    (a + (b + cap - a) % cap) % cap = b := by
  rw [Nat.add_mod_mod]
  have h2 : a + (b + cap - a) = b + cap := by omega
  rw [h2, mod_add_cancel hb]

theorem pred_succ_mod {cap i : Nat} (hi : i < cap) :
    ((i + 1) % cap + cap - 1) % cap = i :=
  off_cancel 1 hi (by omega)

theorem succ_pred_mod {cap i : Nat} (hi : i < cap) :
    ((i + cap - 1) % cap + 1) % cap = i := by
  rw [Nat.mod_add_mod]
  have h1 : i + cap - 1 + 1 = i + cap := by omega
  rw [h1, mod_add_cancel hi]

/-! ## Single-step unfolding lemmas for the loops -/

section StepLemmas

variable {h : Nat → Nat} {m : RobinHashMap} {idx f psl : Nat} {inc b : Bucket} {key : Nat}

theorem insertLoop_step_empty (hs : slotAt m.array idx = none) :
    insertLoop h (f + 1) idx inc m =
      some ({ m with max_psl := Nat.max m.max_psl inc.probe_length,
                     array := m.array.set idx (some inc) }, none) := by
  rw [insertLoop, hs]

theorem insertLoop_step_match (hs : slotAt m.array idx = some b) (hk : b.key = inc.key) :
    insertLoop h (f + 1) idx inc m =
      some ({ m with array := m.array.set idx (some { b with value := inc.value }) },
        some { inc with value := b.value }) := by
  rw [insertLoop, hs]
  dsimp only
  rw [if_pos hk]

theorem insertLoop_step_swap (hs : slotAt m.array idx = some b) (hk : ¬ b.key = inc.key)
    (hp : b.probe_length < inc.probe_length) :
    insertLoop h (f + 1) idx inc m =
      insertLoop h f ((idx + 1) % m.capacity) { b with probe_length := b.probe_length + 1 }
        { m with array := m.array.set idx (some inc) } := by
  rw [insertLoop, hs]
  dsimp only
  rw [if_neg hk, if_pos hp]

theorem insertLoop_step_skip (hs : slotAt m.array idx = some b) (hk : ¬ b.key = inc.key)
    (hp : ¬ b.probe_length < inc.probe_length) :
    insertLoop h (f + 1) idx inc m =
      insertLoop h f ((idx + 1) % m.capacity)
        { inc with probe_length := inc.probe_length + 1 } m := by
  rw [insertLoop, hs]
  dsimp only
  rw [if_neg hk, if_neg hp]

theorem getAux_step_empty (hs : slotAt m.array idx = none) :
    getAux m key (f + 1) idx psl = none := by
  rw [getAux, hs]

theorem getAux_step_match (hs : slotAt m.array idx = some b) (hk : b.key = key) :
    getAux m key (f + 1) idx psl = some b.value := by
  rw [getAux, hs]
  dsimp only
  rw [if_pos hk]

theorem getAux_step_below (hs : slotAt m.array idx = some b) (hk : ¬ b.key = key)
    (hp : b.probe_length < psl) :
    getAux m key (f + 1) idx psl = none := by
  rw [getAux, hs]
  dsimp only
  rw [if_neg hk, if_pos hp]

theorem getAux_step_skip (hs : slotAt m.array idx = some b) (hk : ¬ b.key = key)
    (hp : ¬ b.probe_length < psl) :
    getAux m key (f + 1) idx psl = getAux m key f ((idx + 1) % m.capacity) (psl + 1) := by
  rw [getAux, hs]
  dsimp only
  rw [if_neg hk, if_neg hp]

theorem findAux_step_empty (hs : slotAt m.array idx = none) :
    findAux m key (f + 1) idx psl = none := by
  rw [findAux, hs]

theorem findAux_step_match (hs : slotAt m.array idx = some b) (hk : b.key = key) :
    findAux m key (f + 1) idx psl = some idx := by
  rw [findAux, hs]
  dsimp only
  rw [if_pos hk]

theorem findAux_step_below (hs : slotAt m.array idx = some b) (hk : ¬ b.key = key)
    (hp : b.probe_length < psl) :
    findAux m key (f + 1) idx psl = none := by
  rw [findAux, hs]
  dsimp only
  rw [if_neg hk, if_pos hp]

theorem findAux_step_skip (hs : slotAt m.array idx = some b) (hk : ¬ b.key = key)
    (hp : ¬ b.probe_length < psl) :
    findAux m key (f + 1) idx psl = findAux m key f ((idx + 1) % m.capacity) (psl + 1) := by
  rw [findAux, hs]
  dsimp only
  rw [if_neg hk, if_neg hp]

theorem shiftAux_step_empty {cap e : Nat} {a : List (Option Bucket)}
    (hs : slotAt a ((e + 1) % cap) = none) :
    shiftAux cap (f + 1) a e = some a := by
  rw [shiftAux]
  simp only [hs]

theorem shiftAux_step_home {cap e : Nat} {a : List (Option Bucket)}
    (hs : slotAt a ((e + 1) % cap) = some b) (hp : b.probe_length = 1) :
    shiftAux cap (f + 1) a e = some a := by
  rw [shiftAux]
  simp only [hs]
  rw [if_pos hp]

theorem shiftAux_step_move {cap e : Nat} {a : List (Option Bucket)}
    (hs : slotAt a ((e + 1) % cap) = some b) (hp : ¬ b.probe_length = 1) :
    shiftAux cap (f + 1) a e =
      shiftAux cap f
        ((a.set e (some { b with probe_length := b.probe_length - 1 })).set ((e + 1) % cap) none)
        ((e + 1) % cap) := by
  rw [shiftAux]
  simp only [hs]
  rw [if_neg hp]

end StepLemmas

/-! ## Claims with concrete evaluations -/

/-- C4.  `new` performs no capacity check: constructing with capacity 0
succeeds and returns a zero-slot map instead of failing with an
`InvalidCapacity` condition.  (Every later operation on it computes
`hash % 0`, which panics in Rust.) -/
theorem c4_code_bug : new 0 = { array := [], max_psl := 0, capacity := 0 } := rfl

/-- The `contains` walk and the `get` walk traverse the table identically
and agree step by step. -/
theorem containsAux_eq_isSome (m : RobinHashMap) (key : Nat) :
    ∀ fuel idx psl, containsAux m key fuel idx psl = (getAux m key fuel idx psl).isSome := by
  intro fuel
  induction fuel with
  | zero => intro idx psl; rfl
  | succ n ih =>
    intro idx psl
    rw [containsAux, getAux]
    cases hs : slotAt m.array idx with
    | none => rfl
    | some b =>
      by_cases hk : b.key = key
      · simp [hk]
      · by_cases hp : b.probe_length < psl
        · simp [hk, hp]
        · simp only [if_neg hk, if_neg hp]
          exact ih _ _

/-- C9.  `contains key` returns `true` exactly when `get key` returns a
value: the two lookups always agree, on every map state. -/
theorem c9_contains_agrees_with_get (h : Nat → Nat) (m : RobinHashMap) (key : Nat) :
    contains h m key = (get h m key).isSome :=
  containsAux_eq_isSome m key m.max_psl (h key % m.capacity) 1

/-- C10.  When `delete` completes and returns no removed value, the lookup
phase missed, in which case the code has not mutated anything: the
resulting map is exactly the input map (all slots and `max_psl`). -/
theorem c10_delete_miss_no_change (h : Nat → Nat) (m : RobinHashMap) (key fuel : Nat)
    (m2 : RobinHashMap) (hdel : delete h m key fuel = some (m2, none)) : m2 = m := by
  rw [delete] at hdel
  cases hf : findAux m key m.max_psl (h key % m.capacity) 1 with
  | none =>
    simp only [hf] at hdel
    exact (Prod.mk.injEq .. ▸ (Option.some.injEq .. ▸ hdel)).1.symm
  | some idx =>
    simp only [hf] at hdel
    cases hs : slotAt m.array idx with
    | none => simp only [hs] at hdel; exact absurd hdel (by simp)
    | some removed =>
      simp only [hs] at hdel
      cases hsh : shiftAux m.capacity fuel (m.array.set idx none) idx with
      | none => simp only [hsh] at hdel; exact absurd hdel (by simp)
      | some a =>
        simp only [hsh] at hdel
        simp at hdel

/-- Witness for C10 at a concrete input: deleting from an empty capacity-1
map completes, returns no value, and leaves the map unchanged. -/
theorem c10_witness :
    delete id (new 1) 0 1 = some (new 1, none) ∧ new 1 = new 1 :=
  ⟨by decide, c10_delete_miss_no_change id (new 1) 0 1 (new 1) (by decide)⟩

/-- C1.  Round-trip fails: with the identity hash (the hash function is an
injected capability in this design), capacity 8 and the four distinct keys
0, 8, 2, 16 (at most capacity many), every insert completes as a fresh
insert, yet `get 16` returns `none` instead of the last-written value 30.
The displacement branch of `insert` wrote key 16 with probe length 3 but
never raised `max_psl` above 2, so the lookup walk gives up too early. -/
theorem c1_code_bug :
    insert id (new 8) 0 10 8 = some (mBug1, none) ∧
    insert id mBug1 8 20 8 = some (mBug2, none) ∧
    insert id mBug2 2 40 8 = some (mBug3, none) ∧
    insert id mBug3 16 30 8 = some (mBug, none) ∧
    get id mBug 16 = none := by
  refine ⟨by decide, by decide, by decide, by decide, by decide⟩

/-- C6.  Delete does not preserve other keys' lookups: in the reachable
state `mBug`, key 0 is present, and deleting it changes `get 16` from
`none` to `some 30` (the backward shift lowers the hidden bucket's probe
length into the range the lookup walk still scans). -/
theorem c6_code_bug :
    get id mBug 0 = some 10 ∧
    get id mBug 16 = none ∧
    delete id mBug 0 8 = some (mBugShifted, some 10) ∧
    get id mBugShifted 16 = some 30 := by
  refine ⟨by decide, by decide, by decide, by decide⟩

theorem getElem?_of_slotAt {a : List (Option Bucket)} {i : Nat} {b : Bucket}
    (hb : slotAt a i = some b) : a[i]? = some (some b) := by
  rw [slotAt, List.getD_eq_getElem?_getD] at hb
  cases h : a[i]? with
  | none => rw [h] at hb; simp at hb
  | some o => rw [h] at hb; simp only [Option.getD_some] at hb; rw [hb]

/-- Overwriting an occupied slot with an occupied slot does not change the
number of occupied slots. -/
theorem countP_set_isSome (a : List (Option Bucket)) (i : Nat) (b b2 : Bucket)
    (hb : slotAt a i = some b) :
    (a.set i (some b2)).countP (fun s => s.isSome) = a.countP (fun s => s.isSome) := by
  have hi : i < a.length := slotAt_lt_length hb
  rw [List.countP_set _ _ _ _ hi]
  have hai : a[i] = some b := by
    have h1 := getElem?_of_slotAt hb
    rw [List.getElem?_eq_getElem hi] at h1
    exact Option.some.inj h1
  have hpos : 0 < a.countP (fun s => s.isSome) := by
    rw [List.countP_pos_iff]
    exact ⟨some b, hai ▸ List.getElem_mem hi, rfl⟩
  rw [hai]
  simp only [Option.isSome_some, if_pos]
  omega

/-- The lookup walk and the insert walk proceed in lockstep: if `getAux`
finds key `k` with value `v`, then `insertLoop` started at the same index
with the same probe length (and at least as much fuel) takes no placement
or displacement branch, reaches the same slot, swaps in the new value and
returns the old one — and the lookup walk on the updated map finds the new
value. -/
theorem getAux_insert_parallel (h : Nat → Nat) (m : RobinHashMap) (k v v' : Nat) :
    ∀ n idx psl, getAux m k n idx psl = some v →
    ∀ fuel, n ≤ fuel →
    ∃ i2 b2 c2, slotAt m.array i2 = some b2 ∧ b2.key = k ∧ b2.value = v ∧
      insertLoop h fuel idx { key := k, value := v', probe_length := psl } m =
        some ({ m with array := m.array.set i2 (some { b2 with value := v' }) },
          some { key := k, value := v, probe_length := c2 }) ∧
      getAux { m with array := m.array.set i2 (some { b2 with value := v' }) } k n idx psl
        = some v' := by
  intro n
  induction n with
  | zero => intro idx psl hget; exact absurd hget (by rw [getAux]; simp)
  | succ n ih =>
    intro idx psl hget fuel hfuel
    obtain ⟨f, rfl⟩ : ∃ f, fuel = f + 1 := ⟨fuel - 1, by omega⟩
    rw [getAux] at hget
    cases hs : slotAt m.array idx with
    | none => rw [hs] at hget; simp at hget
    | some b =>
      simp only [hs] at hget
      by_cases hk : b.key = k
      · rw [if_pos hk] at hget
        have hv : b.value = v := Option.some.inj hget
        refine ⟨idx, b, psl, hs, hk, hv, ?_, ?_⟩
        · rw [insertLoop_step_match hs hk, hv]
        · have hset : slotAt (m.array.set idx (some { b with value := v' })) idx
              = some { b with value := v' } :=
            slotAt_set_self _ _ _ (slotAt_lt_length hs)
          have hkk : ({ b with value := v' } : Bucket).key = k := hk
          exact getAux_step_match hset hkk
      · rw [if_neg hk] at hget
        by_cases hp : b.probe_length < psl
        · rw [if_pos hp] at hget; exact absurd hget (by simp)
        · rw [if_neg hp] at hget
          obtain ⟨i2, b2, c2, hslot, hkey, hval, hins, hget'⟩ :=
            ih ((idx + 1) % m.capacity) (psl + 1) hget f (by omega)
          have hne : i2 ≠ idx := by
            intro hh
            subst hh
            rw [hs] at hslot
            cases hslot
            exact hk hkey
          refine ⟨i2, b2, c2, hslot, hkey, hval, ?_, ?_⟩
          · rw [insertLoop_step_skip hs hk hp]
            exact hins
          · refine (getAux_step_skip ?_ hk hp).trans ?_
            · exact (slotAt_set_ne _ _ hne).trans hs
            · exact hget'

/-- The part of the update semantics that does hold: if key `k` is
*visible* — the map's own lookup returns it — then inserting `(k, v')`
completes, returns the evicted bucket carrying key `k` and the previous
value `v`, afterwards `get k` returns `v'`, and the number of occupied
slots is unchanged.  For a key that is stored but hidden above `max_psl`
this fails — see `c5_code_bug`. -/
theorem insert_update_of_get_some (h : Nat → Nat) (m : RobinHashMap) (k v v' fuel : Nat)
    (hget : get h m k = some v) (hfuel : m.max_psl ≤ fuel) :
    ∃ m2 p, insert h m k v' fuel = some (m2, some { key := k, value := v, probe_length := p }) ∧
      get h m2 k = some v' ∧ occupiedCount m2 = occupiedCount m := by
  obtain ⟨i2, b2, c2, hslot, hkey, hval, hins, hget'⟩ :=
    getAux_insert_parallel h m k v v' m.max_psl (h k % m.capacity) 1 hget fuel hfuel
  refine ⟨_, c2, hins, ?_, ?_⟩
  · exact hget'
  · exact countP_set_isSome m.array i2 b2 _ hslot

/-- On a completely full table that nowhere holds the incoming key, the
insert loop never returns: every slot it visits is occupied by some other
key, the Robin Hood swap only exchanges which absent key is carried, and no
exit branch can ever fire. -/
theorem insertLoop_diverges (h : Nat → Nat) :
    ∀ (fuel : Nat) (m : RobinHashMap) (idx : Nat) (inc : Bucket),
      m.array.length = m.capacity →
      (∀ j, j < m.capacity → (slotAt m.array j).isSome) →
      (∀ j, j < m.capacity → ∀ b, slotAt m.array j = some b → b.key ≠ inc.key) →
      DistinctKeys m.array →
      idx < m.capacity →
      insertLoop h fuel idx inc m = none := by
  intro fuel
  induction fuel with
  | zero => intro m idx inc _ _ _ _ _; rfl
  | succ n ih =>
    intro m idx inc hlen hfull habs hdk hidx
    have hcap : 0 < m.capacity := by omega
    obtain ⟨b, hb⟩ : ∃ b, slotAt m.array idx = some b := by
      have hi := hfull idx hidx
      cases hs : slotAt m.array idx with
      | none => rw [hs] at hi; simp at hi
      | some b => exact ⟨b, rfl⟩
    have hkey : ¬ b.key = inc.key := habs idx hidx b hb
    rw [insertLoop, hb]
    simp only [if_neg hkey]
    by_cases hpl : b.probe_length < inc.probe_length
    · simp only [if_pos hpl]
      -- Robin Hood swap: the carried bucket is planted at idx, the evicted
      -- resident (key ≠ inc.key, absent elsewhere by distinctness) carries on.
      apply ih
      · simpa using hlen
      · intro j hj
        by_cases hji : j = idx
        · subst hji
          rw [slotAt_set_self _ _ _ (by omega)]
          rfl
        · rw [slotAt_set_ne _ _ (fun hh => hji hh.symm)]
          exact hfull j hj
      · intro j hj b2 hb2
        by_cases hji : j = idx
        · subst hji
          rw [slotAt_set_self _ _ _ (by omega)] at hb2
          cases hb2
          exact fun hh => hkey hh.symm
        · rw [slotAt_set_ne _ _ (fun hh => hji hh.symm)] at hb2
          exact hdk j idx hji b2 b hb2 hb
      · intro i j hij b1 b2 h1 h2
        by_cases hii : i = idx
        · subst hii
          rw [slotAt_set_self _ _ _ (by omega)] at h1
          cases h1
          rw [slotAt_set_ne _ _ hij] at h2
          have hj : j < m.capacity := hlen ▸ slotAt_lt_length h2
          exact fun hh => habs j hj b2 h2 hh.symm
        · rw [slotAt_set_ne _ _ (fun hh => hii hh.symm)] at h1
          by_cases hji : j = idx
          · subst hji
            rw [slotAt_set_self _ _ _ (by omega)] at h2
            cases h2
            have hi2 : i < m.capacity := hlen ▸ slotAt_lt_length h1
            exact habs i hi2 b1 h1
          · rw [slotAt_set_ne _ _ (fun hh => hji hh.symm)] at h2
            exact hdk i j hij b1 b2 h1 h2
      · exact Nat.mod_lt _ hcap
    · simp only [if_neg hpl]
      exact ih m _ _ hlen hfull habs hdk (Nat.mod_lt _ hcap)

/-- C3.  Full-table behaviour: inserting a second distinct key into a full
capacity-1 table does not fail with a `TableFull` condition — the probe
loop simply never returns, no matter how many iterations it is allowed. -/
theorem c3_code_bug :
    insert id (new 1) 0 10 1 = some (mFull1, none) ∧
    ∀ fuel, insert id mFull1 1 20 fuel = none := by
  constructor
  · decide
  · intro fuel
    apply insertLoop_diverges
    · rfl
    · intro j hj
      have hc : mFull1.capacity = 1 := rfl
      have hj0 : j = 0 := by omega
      subst hj0
      rfl
    · intro j hj b hb
      have hc : mFull1.capacity = 1 := rfl
      have hj0 : j = 0 := by omega
      subst hj0
      have hb2 : some (⟨0, 10, 1⟩ : Bucket) = some b := by rw [← hb]; rfl
      cases hb2
      decide
    · intro i j hij b1 b2 h1 h2
      have hl : mFull1.array.length = 1 := rfl
      have hi : i < 1 := hl ▸ slotAt_lt_length h1
      have hj : j < 1 := hl ▸ slotAt_lt_length h2
      omega
    · decide

/-- The counterexample state `mBug` is reachable: it arises from the four
inserts of `c1_code_bug`. -/
theorem reachable_mBug : Reachable id mBug := by
  have r0 : Reachable id (new 8) := Reachable.init 8 (by omega)
  have r1 : Reachable id mBug1 := Reachable.step_insert _ 0 10 8 _ none r0 (by decide)
  have r2 : Reachable id mBug2 := Reachable.step_insert _ 8 20 8 _ none r1 (by decide)
  have r3 : Reachable id mBug3 := Reachable.step_insert _ 2 40 8 _ none r2 (by decide)
  exact Reachable.step_insert _ 16 30 8 _ none r3 (by decide)

/-- C2.  `max_psl` is neither the maximum probe length of the occupied
slots nor even an upper bound on them: `mBug` is reachable (see
`c1_code_bug` for the insert chain) and has an occupied slot with probe
length 3 while `max_psl = 2`.  (Independently, `delete` never lowers
`max_psl`, so the equality also fails after deletions.) -/
theorem c2_code_bug :
    Reachable id mBug ∧
    slotAt mBug.array 2 = some { key := 16, value := 30, probe_length := 3 } ∧
    mBug.max_psl = 2 ∧
    ¬ (∀ i, i < mBug.capacity → ∀ b, slotAt mBug.array i = some b →
        b.probe_length ≤ mBug.max_psl) := by
  refine ⟨reachable_mBug, by decide, rfl, ?_⟩
  intro hk
  have h3 := hk 2 (by decide) ⟨16, 30, 3⟩ (by decide)
  simp [mBug] at h3

/-- C5.  Update semantics fails for a stored key: in the reachable state
`mBug`, key 16 is present with value 30 (stored at slot 2).  Inserting
(16, 99) completes, returns the old bucket (key 16, value 30), leaves the
occupied-slot count unchanged — but `get 16` afterwards still returns
`none` instead of `some 99`: the insert walk is not bounded by `max_psl`
and finds the bucket, while the lookup walk is and does not. -/
theorem c5_code_bug :
    Reachable id mBug ∧
    slotAt mBug.array 2 = some { key := 16, value := 30, probe_length := 3 } ∧
    insert id mBug 16 99 8
      = some (mBugUpd, some { key := 16, value := 30, probe_length := 3 }) ∧
    occupiedCount mBugUpd = occupiedCount mBug ∧
    get id mBugUpd 16 = none :=
  ⟨reachable_mBug, by decide, by decide, by decide, by decide⟩

/-! ## The inductive invariant: preparatory lemmas -/

/-- I1 bounds the probe length by the capacity. -/
theorem psl_le_cap {h : Nat → Nat} {cap : Nat} {a : List (Option Bucket)}
    (hcap : 0 < cap) (h1 : AI1 h cap a) {i : Nat} {b : Bucket}
    (hi : i < cap) (hb : slotAt a i = some b) : b.probe_length ≤ cap := by
  have he := h1 i hi b hb
  have hlt := Nat.mod_lt (i + cap - h b.key % cap) hcap
  omega

/-- I1 makes every probe length positive. -/
theorem psl_pos {h : Nat → Nat} {cap : Nat} {a : List (Option Bucket)}
    (h1 : AI1 h cap a) {i : Nat} {b : Bucket}
    (hi : i < cap) (hb : slotAt a i = some b) : 1 ≤ b.probe_length := by
  have he := h1 i hi b hb
  omega

theorem add_mod_ne {cap idx d : Nat} (hidx : idx < cap) (hd1 : 1 ≤ d)
    (hd2 : d < cap) : (idx + d) % cap ≠ idx := by
  intro he
  by_cases hlt : idx + d < cap
  · rw [Nat.mod_eq_of_lt hlt] at he
    omega
  · rw [Nat.mod_eq_sub_mod (by omega), Nat.mod_eq_of_lt (by omega)] at he
    omega

/-- Chasing invariant I3 backwards: from an occupied slot, the `j` slots
behind it (up to its probe length) are all occupied, with probe lengths
decreasing by at most one per step. -/
theorem chain_up (h : Nat → Nat) (cap : Nat) (a : List (Option Bucket))
    (hcap : 0 < cap) (h1 : AI1 h cap a) (h3 : AI3 cap a) :
    ∀ (j s : Nat) (b : Bucket), s < cap → slotAt a s = some b → j + 1 ≤ b.probe_length →
      ∃ b2, slotAt a ((s + cap - j) % cap) = some b2 ∧
        b.probe_length ≤ b2.probe_length + j := by
  intro j
  induction j with
  | zero =>
    intro s b hs hb _
    refine ⟨b, ?_, by omega⟩
    have he : s + cap - 0 = s + cap := by omega
    rw [he, mod_add_cancel hs]
    exact hb
  | succ j ih =>
    intro s b hs hb hj
    obtain ⟨b2, hb2, hle⟩ := ih s b hs hb (by omega)
    have hpj : (s + cap - j) % cap < cap := Nat.mod_lt _ hcap
    have h2 : 2 ≤ b2.probe_length := by omega
    obtain ⟨b3, hb3, hle3⟩ := h3 _ hpj b2 hb2 h2
    have hcapb : b.probe_length ≤ cap := psl_le_cap hcap h1 hs hb
    rw [off_back (by omega)] at hb3
    exact ⟨b3, hb3, by omega⟩

/-- If a key's bucket sits `p - c` steps ahead of the walk position `idx`
(per invariant I1), then `idx` itself is occupied by a bucket of probe
length at least `c`: no Robin Hood displacement can fire on the way to an
existing key, and no empty slot can appear before it. -/
theorem chain_at (h : Nat → Nat) (cap : Nat) (a : List (Option Bucket))
    (hcap : 0 < cap) (h1 : AI1 h cap a) (h3 : AI3 cap a)
    {idx ss c : Nat} {bb : Bucket}
    (hss : ss < cap) (hbb : slotAt a ss = some bb) (hidx : idx < cap)
    (hc1 : 1 ≤ c) (hcb : c ≤ bb.probe_length)
    (hpos : ss = (idx + (bb.probe_length - c)) % cap) :
    ∃ br, slotAt a idx = some br ∧ c ≤ br.probe_length := by
  have hble := psl_le_cap hcap h1 hss hbb
  obtain ⟨b2, hb2, hle⟩ :=
    chain_up h cap a hcap h1 h3 (bb.probe_length - c) ss bb hss hbb (by omega)
  have hidx2 : (ss + cap - (bb.probe_length - c)) % cap = idx := by
    rw [hpos]
    exact off_cancel _ hidx (by omega)
  rw [hidx2] at hb2
  exact ⟨b2, hb2, by omega⟩

/-- Replacing the value stored in an occupied slot (key and probe length
unchanged) preserves the structural invariants. -/
theorem inv_value (h : Nat → Nat) (cap : Nat) (a : List (Option Bucket))
    (idx : Nat) (b : Bucket) (v' : Nat)
    (h1 : AI1 h cap a) (h3 : AI3 cap a) (hdk : DistinctKeys a)
    (hb : slotAt a idx = some b) (hidx : idx < cap) :
    AI1 h cap (a.set idx (some { b with value := v' })) ∧
      AI3 cap (a.set idx (some { b with value := v' })) ∧
      DistinctKeys (a.set idx (some { b with value := v' })) := by
  have hil : idx < a.length := slotAt_lt_length hb
  have hsetSelf := slotAt_set_self a idx (some { b with value := v' }) hil
  refine ⟨?_, ?_, ?_⟩
  · intro i hi bi hbi
    by_cases hie : i = idx
    · subst hie
      rw [hsetSelf] at hbi
      cases hbi
      exact h1 i hi b hb
    · rw [slotAt_set_ne _ _ (fun hh => hie hh.symm)] at hbi
      exact h1 i hi bi hbi
  · intro i hi bi hbi h2
    by_cases hie : i = idx
    · subst hie
      rw [hsetSelf] at hbi
      cases hbi
      obtain ⟨b2, hb2, hle⟩ := h3 i hi b hb h2
      by_cases hpe : (i + cap - 1) % cap = i
      · exact ⟨{ b with value := v' }, by rw [hpe, hsetSelf], by omega⟩
      · exact ⟨b2, by rw [slotAt_set_ne _ _ (fun hh => hpe hh.symm)]; exact hb2, hle⟩
    · rw [slotAt_set_ne _ _ (fun hh => hie hh.symm)] at hbi
      obtain ⟨b2, hb2, hle⟩ := h3 i hi bi hbi h2
      by_cases hpe : (i + cap - 1) % cap = idx
      · refine ⟨{ b with value := v' }, by rw [hpe, hsetSelf], ?_⟩
        rw [hpe, hb] at hb2
        cases hb2
        exact hle
      · exact ⟨b2, by rw [slotAt_set_ne _ _ (fun hh => hpe hh.symm)]; exact hb2, hle⟩
  · intro i j hij bi bj hbi hbj
    by_cases hie : i = idx
    · subst hie
      rw [hsetSelf] at hbi
      cases hbi
      rw [slotAt_set_ne _ _ hij] at hbj
      exact hdk i j hij b bj hb hbj
    · rw [slotAt_set_ne _ _ (fun hh => hie hh.symm)] at hbi
      by_cases hje : j = idx
      · subst hje
        rw [hsetSelf] at hbj
        cases hbj
        exact hdk i j hij bi b hbi hb
      · rw [slotAt_set_ne _ _ (fun hh => hje hh.symm)] at hbj
        exact hdk i j hij bi bj hbi hbj

/-- Placing a bucket `c` into slot `idx` preserves the structural
invariants, provided `c`'s probe length matches its position (I1 for the
new bucket), its predecessor supports it (I3 for the new bucket), its key
occurs nowhere else, and its successor is still supported by it. -/
theorem inv_set (h : Nat → Nat) (cap : Nat) (a : List (Option Bucket))
    (idx : Nat) (c : Bucket)
    (hlen : a.length = cap) (hcap : 0 < cap)
    (h1 : AI1 h cap a) (h3 : AI3 cap a) (hdk : DistinctKeys a)
    (hidx : idx < cap)
    (hrel : c.probe_length = (idx + cap - h c.key % cap) % cap + 1)
    (hH : 2 ≤ c.probe_length →
      ∃ b2, slotAt a ((idx + cap - 1) % cap) = some b2 ∧
        c.probe_length ≤ b2.probe_length + 1)
    (hnd : ∀ i, i < cap → i ≠ idx → ∀ b, slotAt a i = some b → b.key ≠ c.key)
    (hsucc : ∀ b1, slotAt a ((idx + 1) % cap) = some b1 →
      b1.probe_length ≤ c.probe_length + 1) :
    AI1 h cap (a.set idx (some c)) ∧ AI3 cap (a.set idx (some c)) ∧
      DistinctKeys (a.set idx (some c)) := by
  have hil : idx < a.length := by omega
  have hsetSelf := slotAt_set_self a idx (some c) hil
  refine ⟨?_, ?_, ?_⟩
  · intro i hi bi hbi
    by_cases hie : i = idx
    · subst hie
      rw [hsetSelf] at hbi
      cases hbi
      exact hrel
    · rw [slotAt_set_ne _ _ (fun hh => hie hh.symm)] at hbi
      exact h1 i hi bi hbi
  · intro i hi bi hbi h2
    by_cases hie : i = idx
    · subst hie
      rw [hsetSelf] at hbi
      cases hbi
      -- the new bucket: 2 ≤ c.probe_length forces cap ≥ 2 via I1, so the
      -- predecessor slot is a different slot, untouched by the update
      have hcap2 : 2 ≤ cap := by
        by_contra hlt
        have hc1 : cap = 1 := by omega
        subst hc1
        omega
      obtain ⟨b2, hb2, hle⟩ := hH h2
      have hpe : (i + cap - 1) % cap ≠ i := by
        intro hh
        have := succ_pred_mod hi
        rw [hh] at this
        exact add_mod_ne hi (by omega) (by omega) this
      exact ⟨b2, by rw [slotAt_set_ne _ _ (fun hh => hpe hh.symm)]; exact hb2, hle⟩
    · rw [slotAt_set_ne _ _ (fun hh => hie hh.symm)] at hbi
      by_cases hpe : (i + cap - 1) % cap = idx
      · -- the predecessor of `i` is the updated slot: then `i` is the
        -- successor of `idx` and the hypothesis on the successor applies
        have hi2 : i = (idx + 1) % cap := by
          rw [← hpe, succ_pred_mod hi]
        refine ⟨c, by rw [hpe, hsetSelf], ?_⟩
        have := hsucc bi (hi2 ▸ hbi)
        omega
      · obtain ⟨b2, hb2, hle⟩ := h3 i hi bi hbi h2
        exact ⟨b2, by rw [slotAt_set_ne _ _ (fun hh => hpe hh.symm)]; exact hb2, hle⟩
  · intro i j hij bi bj hbi hbj
    by_cases hie : i = idx
    · subst hie
      rw [hsetSelf] at hbi
      cases hbi
      rw [slotAt_set_ne _ _ hij] at hbj
      have hjlt : j < cap := by
        have := slotAt_lt_length hbj
        omega
      exact fun hh => hnd j hjlt (fun hh2 => hij hh2.symm) bj hbj hh.symm
    · rw [slotAt_set_ne _ _ (fun hh => hie hh.symm)] at hbi
      by_cases hje : j = idx
      · subst hje
        rw [hsetSelf] at hbj
        cases hbj
        have hilt : i < cap := by
          have := slotAt_lt_length hbi
          omega
        exact hnd i hilt hie bi hbi
      · rw [slotAt_set_ne _ _ (fun hh => hje hh.symm)] at hbj
        exact hdk i j hij bi bj hbi hbj

/-- Invariant preservation for the insert loop while an empty slot lies
`d` steps ahead.  The loop invariant carries: the structural invariants of
the table, I1 for the carried bucket (`hrel`), the fuel-style bound
`probe_length + d ≤ capacity` (which prevents the probe length from ever
wrapping), the position of every occurrence of the carried key (`hG`), and
I3 support from the previous slot (`hH`). -/
theorem insertLoop_inv_empty (h : Nat → Nat) :
    ∀ (fuel : Nat) (m : RobinHashMap) (idx : Nat) (inc : Bucket) (d : Nat),
      Inv h m → idx < m.capacity →
      inc.probe_length = (idx + m.capacity - h inc.key % m.capacity) % m.capacity + 1 →
      slotAt m.array ((idx + d) % m.capacity) = none →
      inc.probe_length + d ≤ m.capacity →
      (∀ i, i < m.capacity → ∀ b, slotAt m.array i = some b → b.key = inc.key →
        inc.probe_length ≤ b.probe_length ∧
          i = (idx + (b.probe_length - inc.probe_length)) % m.capacity) →
      (2 ≤ inc.probe_length →
        ∃ b2, slotAt m.array ((idx + m.capacity - 1) % m.capacity) = some b2 ∧
          inc.probe_length ≤ b2.probe_length + 1) →
      ∀ m2 r, insertLoop h fuel idx inc m = some (m2, r) → Inv h m2 := by
  intro fuel
  induction fuel with
  | zero =>
    intro m idx inc d _ _ _ _ _ _ _ m2 r heq
    rw [insertLoop] at heq
    exact Option.noConfusion heq
  | succ f ih =>
    intro m idx inc d hInv hidx hrel hempty hbound hG hH m2 r heq
    obtain ⟨hlen, hcap, h1, h3, hdk⟩ := hInv
    have hinc1 : 1 ≤ inc.probe_length := by omega
    cases hs : slotAt m.array idx with
    | none =>
      -- place the carried bucket in the empty slot and return
      rw [insertLoop_step_empty hs] at heq
      injection heq with h12
      injection h12 with hA hB
      subst hA
      have hnd : ∀ i, i < m.capacity → i ≠ idx → ∀ b, slotAt m.array i = some b →
          b.key ≠ inc.key := by
        intro i hi hne b hb hkeq
        obtain ⟨hle, hpos⟩ := hG i hi b hb hkeq
        rcases Nat.lt_or_ge inc.probe_length b.probe_length with hlt | hge
        · obtain ⟨br, hbr, _⟩ :=
            chain_at h m.capacity m.array hcap h1 h3 hi hb hidx hinc1 (by omega) hpos
          rw [hs] at hbr
          exact Option.noConfusion hbr
        · have heq2 : b.probe_length = inc.probe_length := by omega
          rw [heq2, Nat.sub_self, Nat.add_zero, Nat.mod_eq_of_lt hidx] at hpos
          exact hne hpos
      have hsucc : ∀ b1, slotAt m.array ((idx + 1) % m.capacity) = some b1 →
          b1.probe_length ≤ inc.probe_length + 1 := by
        intro b1 hb1
        by_cases h2 : 2 ≤ b1.probe_length
        · obtain ⟨b2, hb2, _⟩ := h3 ((idx + 1) % m.capacity) (Nat.mod_lt _ hcap) b1 hb1 h2
          rw [pred_succ_mod hidx, hs] at hb2
          exact Option.noConfusion hb2
        · omega
      obtain ⟨hA1, hA3, hDK⟩ :=
        inv_set h m.capacity m.array idx inc hlen hcap h1 h3 hdk hidx hrel hH hnd hsucc
      exact ⟨by rw [List.length_set]; exact hlen, hcap, hA1, hA3, hDK⟩
    | some b =>
      by_cases hkey : b.key = inc.key
      · -- update in place: only the stored value changes
        rw [insertLoop_step_match hs hkey] at heq
        injection heq with h12
        injection h12 with hA hB
        subst hA
        obtain ⟨hA1, hA3, hDK⟩ :=
          inv_value h m.capacity m.array idx b inc.value h1 h3 hdk hs hidx
        exact ⟨by rw [List.length_set]; exact hlen, hcap, hA1, hA3, hDK⟩
      · have hd1 : 1 ≤ d := by
          rcases Nat.eq_zero_or_pos d with h0 | h1'
          · subst h0
            rw [Nat.add_zero, Nat.mod_eq_of_lt hidx, hs] at hempty
            exact Option.noConfusion hempty
          · exact h1'
        have hdcap : d < m.capacity := by omega
        have hmlt : h inc.key % m.capacity < m.capacity := Nat.mod_lt _ hcap
        have hpos1 : ((idx + 1) % m.capacity + (d - 1)) % m.capacity
            = (idx + d) % m.capacity := by
          rw [Nat.mod_add_mod]
          congr 1
          omega
        have hnedx : idx ≠ (idx + d) % m.capacity :=
          fun hh => add_mod_ne hidx hd1 hdcap hh.symm
        by_cases hpl : b.probe_length < inc.probe_length
        · -- Robin Hood swap: plant the carried bucket, evict the resident
          rw [insertLoop_step_swap hs hkey hpl] at heq
          have hnd : ∀ i, i < m.capacity → i ≠ idx → ∀ bi, slotAt m.array i = some bi →
              bi.key ≠ inc.key := by
            intro i hi hne bi hbi hkeq
            obtain ⟨hle, hpos⟩ := hG i hi bi hbi hkeq
            rcases Nat.lt_or_ge inc.probe_length bi.probe_length with hlt | hge
            · obtain ⟨br, hbr, hcle⟩ :=
                chain_at h m.capacity m.array hcap h1 h3 hi hbi hidx hinc1 (by omega) hpos
              rw [hs] at hbr
              injection hbr with hbr2
              subst hbr2
              omega
            · have heq2 : bi.probe_length = inc.probe_length := by omega
              rw [heq2, Nat.sub_self, Nat.add_zero, Nat.mod_eq_of_lt hidx] at hpos
              exact hne hpos
          have hsucc : ∀ b1, slotAt m.array ((idx + 1) % m.capacity) = some b1 →
              b1.probe_length ≤ inc.probe_length + 1 := by
            intro b1 hb1
            by_cases h2 : 2 ≤ b1.probe_length
            · obtain ⟨b2, hb2, hle2⟩ :=
                h3 ((idx + 1) % m.capacity) (Nat.mod_lt _ hcap) b1 hb1 h2
              rw [pred_succ_mod hidx, hs] at hb2
              injection hb2 with hb22
              subst hb22
              omega
            · omega
          obtain ⟨hA1, hA3, hDK⟩ :=
            inv_set h m.capacity m.array idx inc hlen hcap h1 h3 hdk hidx hrel hH hnd hsucc
          have hb1 := h1 idx hidx b hs
          refine ih { m with array := m.array.set idx (some inc) }
            ((idx + 1) % m.capacity) { b with probe_length := b.probe_length + 1 } (d - 1)
            ⟨by rw [List.length_set]; exact hlen, hcap, hA1, hA3, hDK⟩
            (Nat.mod_lt _ hcap) ?_ ?_ ?_ ?_ ?_ m2 r heq
          · show b.probe_length + 1 = ((idx + 1) % m.capacity + m.capacity
              - h b.key % m.capacity) % m.capacity + 1
            rw [off_step (le_of_lt (Nat.mod_lt _ hcap)) idx,
              Nat.mod_eq_of_lt (by omega)]
            omega
          · show slotAt (m.array.set idx (some inc))
              (((idx + 1) % m.capacity + (d - 1)) % m.capacity) = none
            rw [hpos1, slotAt_set_ne _ _ hnedx]
            exact hempty
          · show b.probe_length + 1 + (d - 1) ≤ m.capacity
            omega
          · intro i hi bi hbi hkeq
            exfalso
            by_cases hie : i = idx
            · subst hie
              rw [slotAt_set_self _ _ _ (by omega)] at hbi
              injection hbi with hbi2
              subst hbi2
              exact hkey hkeq.symm
            · rw [slotAt_set_ne _ _ (fun hh => hie hh.symm)] at hbi
              exact hdk i idx hie bi b hbi hs hkeq
          · intro _
            refine ⟨inc, ?_, ?_⟩
            · rw [pred_succ_mod hidx]
              exact slotAt_set_self _ _ _ (by omega)
            · show b.probe_length + 1 ≤ inc.probe_length + 1
              omega
        · -- the resident is at least as deep: step past it
          rw [insertLoop_step_skip hs hkey hpl] at heq
          refine ih m ((idx + 1) % m.capacity)
            { inc with probe_length := inc.probe_length + 1 } (d - 1)
            ⟨hlen, hcap, h1, h3, hdk⟩ (Nat.mod_lt _ hcap) ?_ ?_ ?_ ?_ ?_ m2 r heq
          · show inc.probe_length + 1 = ((idx + 1) % m.capacity + m.capacity
              - h inc.key % m.capacity) % m.capacity + 1
            rw [off_step (le_of_lt hmlt) idx, Nat.mod_eq_of_lt (by omega)]
            omega
          · show slotAt m.array (((idx + 1) % m.capacity + (d - 1)) % m.capacity) = none
            rw [hpos1]
            exact hempty
          · show inc.probe_length + 1 + (d - 1) ≤ m.capacity
            omega
          · intro i hi bi hbi hkeq
            obtain ⟨hle, hpos⟩ := hG i hi bi hbi hkeq
            have hlt : inc.probe_length < bi.probe_length := by
              by_cases hbe : bi.probe_length = inc.probe_length
              · exfalso
                rw [hbe, Nat.sub_self, Nat.add_zero, Nat.mod_eq_of_lt hidx] at hpos
                rw [hpos, hs] at hbi
                injection hbi with hbi2
                subst hbi2
                exact hkey hkeq
              · omega
            refine ⟨?_, ?_⟩
            · show inc.probe_length + 1 ≤ bi.probe_length
              omega
            · show i = ((idx + 1) % m.capacity
                + (bi.probe_length - (inc.probe_length + 1))) % m.capacity
              rw [Nat.mod_add_mod, hpos]
              congr 1
              omega
          · intro _
            refine ⟨b, ?_, ?_⟩
            · rw [pred_succ_mod hidx]
              exact hs
            · show inc.probe_length + 1 ≤ b.probe_length + 1
              omega

/-- Invariant preservation for the insert loop when the carried key is
already stored `bb.probe_length - inc.probe_length` steps ahead: by the
backward chain, every slot up to it is occupied with a probe length at
least the walk's, so the loop only steps forward until it hits the stored
bucket and updates its value in place. -/
theorem insertLoop_inv_present (h : Nat → Nat) :
    ∀ (fuel : Nat) (m : RobinHashMap) (idx : Nat) (inc : Bucket) (ss : Nat) (bb : Bucket),
      Inv h m → idx < m.capacity →
      inc.probe_length = (idx + m.capacity - h inc.key % m.capacity) % m.capacity + 1 →
      ss < m.capacity → slotAt m.array ss = some bb → bb.key = inc.key →
      inc.probe_length ≤ bb.probe_length →
      ss = (idx + (bb.probe_length - inc.probe_length)) % m.capacity →
      ∀ m2 r, insertLoop h fuel idx inc m = some (m2, r) → Inv h m2 := by
  intro fuel
  induction fuel with
  | zero =>
    intro m idx inc ss bb _ _ _ _ _ _ _ _ m2 r heq
    rw [insertLoop] at heq
    exact Option.noConfusion heq
  | succ f ih =>
    intro m idx inc ss bb hInv hidx hrel hss hbb hbk hple hpos m2 r heq
    obtain ⟨hlen, hcap, h1, h3, hdk⟩ := hInv
    have hinc1 : 1 ≤ inc.probe_length := by omega
    have hmlt : h inc.key % m.capacity < m.capacity := Nat.mod_lt _ hcap
    obtain ⟨br, hbr, hbrle⟩ :=
      chain_at h m.capacity m.array hcap h1 h3 hss hbb hidx hinc1 hple hpos
    by_cases hkeyb : br.key = inc.key
    · rw [insertLoop_step_match hbr hkeyb] at heq
      injection heq with h12
      injection h12 with hA hB
      subst hA
      obtain ⟨hA1, hA3, hDK⟩ :=
        inv_value h m.capacity m.array idx br inc.value h1 h3 hdk hbr hidx
      exact ⟨by rw [List.length_set]; exact hlen, hcap, hA1, hA3, hDK⟩
    · have hnswap : ¬ br.probe_length < inc.probe_length := by omega
      rw [insertLoop_step_skip hbr hkeyb hnswap] at heq
      have hlt : inc.probe_length < bb.probe_length := by
        by_cases hbe : bb.probe_length = inc.probe_length
        · exfalso
          rw [hbe, Nat.sub_self, Nat.add_zero, Nat.mod_eq_of_lt hidx] at hpos
          rw [hpos, hbr] at hbb
          injection hbb with hbb2
          subst hbb2
          exact hkeyb hbk
        · omega
      have hblecap : bb.probe_length ≤ m.capacity := psl_le_cap hcap h1 hss hbb
      refine ih m ((idx + 1) % m.capacity)
        { inc with probe_length := inc.probe_length + 1 } ss bb
        ⟨hlen, hcap, h1, h3, hdk⟩ (Nat.mod_lt _ hcap) ?_ hss hbb hbk ?_ ?_ m2 r heq
      · show inc.probe_length + 1 = ((idx + 1) % m.capacity + m.capacity
          - h inc.key % m.capacity) % m.capacity + 1
        rw [off_step (le_of_lt hmlt) idx, Nat.mod_eq_of_lt (by omega)]
        omega
      · show inc.probe_length + 1 ≤ bb.probe_length
        omega
      · show ss = ((idx + 1) % m.capacity
          + (bb.probe_length - (inc.probe_length + 1))) % m.capacity
        rw [Nat.mod_add_mod, hpos]
        congr 1
        omega

/-- A completed `insert` preserves the structural invariants: if the table
still has an empty slot the empty-path lemma applies; on a full table the
key must be present (otherwise the loop provably never returns) and the
present-path lemma applies. -/
theorem insert_inv (h : Nat → Nat) (m : RobinHashMap) (k v fuel : Nat)
    (m2 : RobinHashMap) (r : Option Bucket)
    (hInv : Inv h m) (heq : insert h m k v fuel = some (m2, r)) : Inv h m2 := by
  obtain ⟨hlen, hcap, h1, h3, hdk⟩ := hInv
  rw [insert] at heq
  have hhome : h k % m.capacity < m.capacity := Nat.mod_lt _ hcap
  by_cases hfull : ∀ j, j < m.capacity → (slotAt m.array j).isSome
  · by_cases hpres : ∃ ss, ss < m.capacity ∧ ∃ b, slotAt m.array ss = some b ∧ b.key = k
    · obtain ⟨ss, hss, bb, hbb, hbk⟩ := hpres
      have hb1 := h1 ss hss bb hbb
      rw [hbk] at hb1
      refine insertLoop_inv_present h fuel m (h k % m.capacity) ⟨k, v, 1⟩ ss bb
        ⟨hlen, hcap, h1, h3, hdk⟩ hhome ?_ hss hbb hbk ?_ ?_ m2 r heq
      · show 1 = (h k % m.capacity + m.capacity - h k % m.capacity) % m.capacity + 1
        have he : h k % m.capacity + m.capacity - h k % m.capacity = m.capacity := by omega
        rw [he, Nat.mod_self]
      · show 1 ≤ bb.probe_length
        omega
      · show ss = (h k % m.capacity + (bb.probe_length - 1)) % m.capacity
        rw [show bb.probe_length - 1
          = (ss + m.capacity - h k % m.capacity) % m.capacity from by omega]
        exact (off_elim hhome hss).symm
    · exfalso
      have hdiv := insertLoop_diverges h fuel m (h k % m.capacity) ⟨k, v, 1⟩ hlen hfull
        (fun j hj b hb hkeq => hpres ⟨j, hj, b, hb, hkeq⟩) hdk hhome
      rw [hdiv] at heq
      exact Option.noConfusion heq
  · push_neg at hfull
    obtain ⟨j, hj, hjs⟩ := hfull
    have hjnone : slotAt m.array j = none := by
      cases hsl : slotAt m.array j with
      | none => rfl
      | some b => rw [hsl] at hjs; simp at hjs
    refine insertLoop_inv_empty h fuel m (h k % m.capacity) ⟨k, v, 1⟩
      ((j + m.capacity - h k % m.capacity) % m.capacity)
      ⟨hlen, hcap, h1, h3, hdk⟩ hhome ?_ ?_ ?_ ?_ ?_ m2 r heq
    · show 1 = (h k % m.capacity + m.capacity - h k % m.capacity) % m.capacity + 1
      have he : h k % m.capacity + m.capacity - h k % m.capacity = m.capacity := by omega
      rw [he, Nat.mod_self]
    · show slotAt m.array ((h k % m.capacity
        + (j + m.capacity - h k % m.capacity) % m.capacity) % m.capacity) = none
      rw [off_elim hhome hj]
      exact hjnone
    · show 1 + (j + m.capacity - h k % m.capacity) % m.capacity ≤ m.capacity
      have := Nat.mod_lt (j + m.capacity - h k % m.capacity) hcap
      omega
    · intro i hi b hb hkeq
      have hbk2 : b.key = k := hkeq
      have hb1 := h1 i hi b hb
      rw [hbk2] at hb1
      refine ⟨?_, ?_⟩
      · show 1 ≤ b.probe_length
        omega
      · show i = (h k % m.capacity + (b.probe_length - 1)) % m.capacity
        rw [show b.probe_length - 1
          = (i + m.capacity - h k % m.capacity) % m.capacity from by omega]
        exact (off_elim hhome hi).symm
    · intro h2
      exact absurd (show (2 : Nat) ≤ 1 from h2) (by omega)

/-- A successful find returns an in-range index whose slot holds the key. -/
theorem findAux_some (m : RobinHashMap) (key : Nat) :
    ∀ (fuel idx psl i2 : Nat), idx < m.capacity →
      findAux m key fuel idx psl = some i2 →
      i2 < m.capacity ∧ ∃ b, slotAt m.array i2 = some b ∧ b.key = key := by
  intro fuel
  induction fuel with
  | zero =>
    intro idx psl i2 _ heq
    rw [findAux] at heq
    exact Option.noConfusion heq
  | succ f ih =>
    intro idx psl i2 hidx heq
    have hcap : 0 < m.capacity := by omega
    cases hs : slotAt m.array idx with
    | none =>
      rw [findAux_step_empty hs] at heq
      exact Option.noConfusion heq
    | some b =>
      by_cases hk : b.key = key
      · rw [findAux_step_match hs hk] at heq
        injection heq with h2
        subst h2
        exact ⟨hidx, b, hs, hk⟩
      · by_cases hp : b.probe_length < psl
        · rw [findAux_step_below hs hk hp] at heq
          exact Option.noConfusion heq
        · rw [findAux_step_skip hs hk hp] at heq
          exact ih _ _ _ (Nat.mod_lt _ hcap) heq

/-- Invariant preservation for the backward-shift loop of `delete`.  The
hole at `e` is empty; I3 holds everywhere except possibly at the hole's
successor (`hexc`), and the slot before the hole can still support the
hole's successor once it moves back (`hK`).  Each move re-establishes the
same picture one slot further on, and both stop conditions close the
remaining gap. -/
theorem shiftAux_inv (h : Nat → Nat) (cap : Nat) :
    ∀ (fuel : Nat) (a : List (Option Bucket)) (e : Nat),
      a.length = cap → 0 < cap → e < cap →
      AI1 h cap a → DistinctKeys a →
      slotAt a e = none →
      (∀ i, i < cap → i ≠ (e + 1) % cap → ∀ b, slotAt a i = some b →
        2 ≤ b.probe_length →
        ∃ b2, slotAt a ((i + cap - 1) % cap) = some b2 ∧
          b.probe_length ≤ b2.probe_length + 1) →
      (∀ b1, slotAt a ((e + 1) % cap) = some b1 → 3 ≤ b1.probe_length →
        ∃ b2, slotAt a ((e + cap - 1) % cap) = some b2 ∧
          b1.probe_length ≤ b2.probe_length + 2) →
      ∀ a2, shiftAux cap fuel a e = some a2 →
        a2.length = cap ∧ AI1 h cap a2 ∧ AI3 cap a2 ∧ DistinctKeys a2 := by
  intro fuel
  induction fuel with
  | zero =>
    intro a e _ _ _ _ _ _ _ _ a2 heq
    rw [shiftAux] at heq
    exact Option.noConfusion heq
  | succ f ih =>
    intro a e hlen hcap he h1 hdk hse hexc hK a2 heq
    cases hs : slotAt a ((e + 1) % cap) with
    | none =>
      rw [shiftAux_step_empty hs] at heq
      injection heq with h2
      subst h2
      refine ⟨hlen, h1, ?_, hdk⟩
      intro i hi b hb h2b
      by_cases hie : i = (e + 1) % cap
      · rw [hie, hs] at hb
        exact Option.noConfusion hb
      · exact hexc i hi hie b hb h2b
    | some b =>
      by_cases hp1 : b.probe_length = 1
      · rw [shiftAux_step_home hs hp1] at heq
        injection heq with h2
        subst h2
        refine ⟨hlen, h1, ?_, hdk⟩
        intro i hi bi hbi h2b
        by_cases hie : i = (e + 1) % cap
        · subst hie
          rw [hs] at hbi
          injection hbi with hbi2
          subst hbi2
          omega
        · exact hexc i hi hie bi hbi h2b
      · rw [shiftAux_step_move hs hp1] at heq
        have hcap2 : 2 ≤ cap := by
          by_contra hc
          have he0 : e = 0 := by omega
          have hc1 : cap = 1 := by omega
          subst he0
          subst hc1
          rw [show (0 + 1) % 1 = 0 from rfl, hse] at hs
          exact Option.noConfusion hs
        have hnlt : (e + 1) % cap < cap := Nat.mod_lt _ hcap
        have hnee : (e + 1) % cap ≠ e := fun hh => add_mod_ne he (by omega) (by omega) hh
        have hb2le : 2 ≤ b.probe_length := by
          have := psl_pos h1 hnlt hs
          omega
        have hbcap : b.probe_length ≤ cap := psl_le_cap hcap h1 hnlt hs
        have hm := h1 ((e + 1) % cap) hnlt b hs
        have hstep := off_step (le_of_lt (Nat.mod_lt (h b.key) hcap)) e
        have hXval : (e + cap - h b.key % cap) % cap = b.probe_length - 2 := by
          by_cases hw : (e + cap - h b.key % cap) % cap + 1 < cap
          · rw [Nat.mod_eq_of_lt hw] at hstep
            omega
          · have hXlt : (e + cap - h b.key % cap) % cap < cap := Nat.mod_lt _ hcap
            have hXe : (e + cap - h b.key % cap) % cap + 1 = cap := by omega
            rw [hXe, Nat.mod_self] at hstep
            omega
        have hel : e < a.length := by omega
        have hslotE : slotAt ((a.set e (some { b with probe_length := b.probe_length - 1 })).set
            ((e + 1) % cap) none) e = some { b with probe_length := b.probe_length - 1 } := by
          rw [slotAt_set_ne _ _ hnee]
          exact slotAt_set_self a e _ hel
        have hslotN : slotAt ((a.set e (some { b with probe_length := b.probe_length - 1 })).set
            ((e + 1) % cap) none) ((e + 1) % cap) = none := by
          refine slotAt_set_self _ _ _ ?_
          rw [List.length_set]
          omega
        have hslotO : ∀ x, x ≠ e → x ≠ (e + 1) % cap →
            slotAt ((a.set e (some { b with probe_length := b.probe_length - 1 })).set
              ((e + 1) % cap) none) x = slotAt a x := by
          intro x hxe hxn
          rw [slotAt_set_ne _ _ (fun hh => hxn hh.symm),
            slotAt_set_ne _ _ (fun hh => hxe hh.symm)]
        refine ih _ ((e + 1) % cap) ?_ hcap hnlt ?_ ?_ hslotN ?_ ?_ a2 heq
        · rw [List.length_set, List.length_set]
          exact hlen
        · -- AI1 after the move
          intro i hi bi hbi
          by_cases hie : i = e
          · subst hie
            rw [hslotE] at hbi
            injection hbi with hbi2
            subst hbi2
            show b.probe_length - 1 = (i + cap - h b.key % cap) % cap + 1
            rw [hXval]
            omega
          · by_cases hin : i = (e + 1) % cap
            · subst hin
              rw [hslotN] at hbi
              exact Option.noConfusion hbi
            · rw [hslotO i hie hin] at hbi
              exact h1 i hi bi hbi
        · -- distinct keys after the move
          intro i j hij bi bj hbi hbj
          by_cases hie : i = e
          · rw [hie] at hbi
            rw [hslotE] at hbi
            injection hbi with hbi2
            subst hbi2
            by_cases hjn : j = (e + 1) % cap
            · rw [hjn] at hbj
              rw [hslotN] at hbj
              exact absurd hbj (by simp)
            · rw [hslotO j (fun hh => hij (hie.trans hh.symm)) hjn] at hbj
              exact hdk ((e + 1) % cap) j (fun hh => hjn hh.symm) b bj hs hbj
          · by_cases hin : i = (e + 1) % cap
            · subst hin
              rw [hslotN] at hbi
              exact absurd hbi (by simp)
            · rw [hslotO i hie hin] at hbi
              by_cases hje : j = e
              · rw [hje] at hbj
                rw [hslotE] at hbj
                injection hbj with hbj2
                subst hbj2
                exact hdk i ((e + 1) % cap) hin bi b hbi hs
              · by_cases hjn : j = (e + 1) % cap
                · rw [hjn] at hbj
                  rw [hslotN] at hbj
                  exact absurd hbj (by simp)
                · rw [hslotO j hje hjn] at hbj
                  exact hdk i j hij bi bj hbi hbj
        · -- I3 everywhere except at the new hole's successor
          intro i hi hine bi hbi h2b
          by_cases hie : i = e
          · subst hie
            rw [hslotE] at hbi
            injection hbi with hbi2
            subst hbi2
            have h2b' : 2 ≤ b.probe_length - 1 := h2b
            have h3b : 3 ≤ b.probe_length := by omega
            have hcap3 : 3 ≤ cap := le_trans h3b hbcap
            obtain ⟨b2, hb2, hle2⟩ := hK b hs h3b
            have hpe : (i + cap - 1) % cap ≠ i := by
              intro hh
              have hsp := succ_pred_mod hi
              rw [hh] at hsp
              exact hnee hsp
            have hpn : (i + cap - 1) % cap ≠ (i + 1) % cap := by
              intro hh
              have hsp := succ_pred_mod hi
              rw [hh, Nat.mod_add_mod] at hsp
              have hsp2 : (i + 2) % cap = i := hsp
              exact absurd hsp2 (add_mod_ne hi (by omega) (by omega))
            refine ⟨b2, ?_, ?_⟩
            · rw [hslotO _ hpe hpn]
              exact hb2
            · show b.probe_length - 1 ≤ b2.probe_length + 1
              omega
          · by_cases hin : i = (e + 1) % cap
            · subst hin
              rw [hslotN] at hbi
              exact Option.noConfusion hbi
            · rw [hslotO i hie hin] at hbi
              have hpredE : (i + cap - 1) % cap ≠ e := by
                intro hh
                have hsp := succ_pred_mod hi
                rw [hh] at hsp
                exact hin hsp.symm
              have hpredN : (i + cap - 1) % cap ≠ (e + 1) % cap := by
                intro hh
                have hsp := succ_pred_mod hi
                rw [hh] at hsp
                exact hine hsp.symm
              obtain ⟨b2, hb2, hle2⟩ := hexc i hi hin bi hbi h2b
              refine ⟨b2, ?_, hle2⟩
              rw [hslotO _ hpredE hpredN]
              exact hb2
        · -- support across the new hole
          intro b1 hb1 h3b
          have hnn : ((e + 1) % cap + 1) % cap ≠ (e + 1) % cap :=
            fun hh => add_mod_ne hnlt (by omega) (by omega) hh
          by_cases hce : ((e + 1) % cap + 1) % cap = e
          · rw [hce, hslotE] at hb1
            injection hb1 with hb12
            subst hb12
            have h3b' : 3 ≤ b.probe_length - 1 := h3b
            have hcap4 : 4 ≤ cap := by omega
            rw [Nat.mod_add_mod] at hce
            have hce2 : (e + 2) % cap = e := hce
            exact absurd hce2 (add_mod_ne he (by omega) (by omega))
          · rw [hslotO _ hce hnn] at hb1
            obtain ⟨b2, hb2, hle2⟩ :=
              hexc (((e + 1) % cap + 1) % cap) (Nat.mod_lt _ hcap) hnn b1 hb1 (by omega)
            rw [pred_succ_mod hnlt, hs] at hb2
            injection hb2 with hb22
            subst hb22
            refine ⟨{ b with probe_length := b.probe_length - 1 }, ?_, ?_⟩
            · rw [pred_succ_mod he]
              exact hslotE
            · show b1.probe_length ≤ b.probe_length - 1 + 2
              omega

/-- A completed `delete` preserves the structural invariants. -/
theorem delete_inv (h : Nat → Nat) (m : RobinHashMap) (k fuel : Nat)
    (m2 : RobinHashMap) (r : Option Nat)
    (hInv : Inv h m) (heq : delete h m k fuel = some (m2, r)) : Inv h m2 := by
  obtain ⟨hlen, hcap, h1, h3, hdk⟩ := hInv
  rw [delete] at heq
  cases hf : findAux m k m.max_psl (h k % m.capacity) 1 with
  | none =>
    simp only [hf] at heq
    injection heq with h12
    injection h12 with hA hB
    subst hA
    exact ⟨hlen, hcap, h1, h3, hdk⟩
  | some di =>
    simp only [hf] at heq
    obtain ⟨hdi, br, hbr, hbk⟩ :=
      findAux_some m k m.max_psl (h k % m.capacity) 1 di (Nat.mod_lt _ hcap) hf
    rw [hbr] at heq
    cases hsh : shiftAux m.capacity fuel (m.array.set di none) di with
    | none =>
      simp only [hsh] at heq
      exact Option.noConfusion heq
    | some a2 =>
      simp only [hsh] at heq
      injection heq with h12
      injection h12 with hA hB
      subst hA
      have hdl : di < m.array.length := by omega
      have hsetdi : slotAt (m.array.set di none) di = none := slotAt_set_self _ _ _ hdl
      have hslotO : ∀ x, x ≠ di → slotAt (m.array.set di none) x = slotAt m.array x :=
        fun x hx => slotAt_set_ne _ _ (fun hh => hx hh.symm)
      have hres := shiftAux_inv h m.capacity fuel (m.array.set di none) di
        (by rw [List.length_set]; exact hlen) hcap hdi ?_ ?_ hsetdi ?_ ?_ a2 hsh
      · exact ⟨hres.1, hcap, hres.2.1, hres.2.2.1, hres.2.2.2⟩
      · intro i hi bi hbi
        have hine : i ≠ di := by
          intro hh
          rw [hh, hsetdi] at hbi
          exact Option.noConfusion hbi
        rw [hslotO i hine] at hbi
        exact h1 i hi bi hbi
      · intro i j hij bi bj hbi hbj
        have hine : i ≠ di := by
          intro hh
          rw [hh, hsetdi] at hbi
          exact Option.noConfusion hbi
        have hjne : j ≠ di := by
          intro hh
          rw [hh, hsetdi] at hbj
          exact Option.noConfusion hbj
        rw [hslotO i hine] at hbi
        rw [hslotO j hjne] at hbj
        exact hdk i j hij bi bj hbi hbj
      · intro i hi hine bi hbi h2b
        have hidne : i ≠ di := by
          intro hh
          rw [hh, hsetdi] at hbi
          exact Option.noConfusion hbi
        rw [hslotO i hidne] at hbi
        obtain ⟨b2, hb2, hle2⟩ := h3 i hi bi hbi h2b
        have hpredne : (i + m.capacity - 1) % m.capacity ≠ di := by
          intro hh
          have hsp := succ_pred_mod hi
          rw [hh] at hsp
          exact hine hsp.symm
        refine ⟨b2, ?_, hle2⟩
        rw [hslotO _ hpredne]
        exact hb2
      · intro b1 hb1 h3b
        have hne1 : (di + 1) % m.capacity ≠ di := by
          intro hh
          rw [hh, hsetdi] at hb1
          exact Option.noConfusion hb1
        rw [hslotO _ hne1] at hb1
        have hnlt : (di + 1) % m.capacity < m.capacity := Nat.mod_lt _ hcap
        obtain ⟨bx, hbx, hlex⟩ := h3 ((di + 1) % m.capacity) hnlt b1 hb1 (by omega)
        rw [pred_succ_mod hdi, hbr] at hbx
        injection hbx with hxx
        subst hxx
        obtain ⟨b2, hb2, hle2⟩ := h3 di hdi br hbr (by omega)
        have hpredne : (di + m.capacity - 1) % m.capacity ≠ di := by
          intro hh
          have hsp := succ_pred_mod hdi
          rw [hh] at hsp
          exact hne1 hsp
        refine ⟨b2, ?_, ?_⟩
        · rw [hslotO _ hpredne]
          exact hb2
        · omega

/-- A freshly constructed map satisfies the invariants. -/
theorem slotAt_replicate (cap i : Nat) : slotAt (List.replicate cap none) i = none := by
  rw [slotAt, List.getD_eq_getElem?_getD, List.getElem?_replicate]
  by_cases hi : i < cap
  · rw [if_pos hi]
    rfl
  · rw [if_neg hi]
    rfl

theorem inv_new (h : Nat → Nat) (cap : Nat) (hcap : 0 < cap) : Inv h (new cap) := by
  refine ⟨List.length_replicate .., hcap, ?_, ?_, ?_⟩
  · intro i hi b hb
    have hb2 : slotAt (List.replicate cap none) i = some b := hb
    rw [slotAt_replicate] at hb2
    exact Option.noConfusion hb2
  · intro i hi b hb h2
    have hb2 : slotAt (List.replicate cap none) i = some b := hb
    rw [slotAt_replicate] at hb2
    exact Option.noConfusion hb2
  · intro i j hij bi bj hbi hbj
    have hb2 : slotAt (List.replicate cap none) i = some bi := hbi
    rw [slotAt_replicate] at hb2
    exact Option.noConfusion hb2

/-- Every reachable state satisfies the structural invariants I1, I3 and
key distinctness. -/
theorem reachable_inv (h : Nat → Nat) (m : RobinHashMap) (hr : Reachable h m) :
    Inv h m := by
  induction hr with
  | init cap hcap => exact inv_new h cap hcap
  | step_insert m0 k v fuel m2 r _ heq ih => exact insert_inv h m0 k v fuel m2 r ih heq
  | step_delete m0 k fuel m2 r _ heq ih => exact delete_inv h m0 k fuel m2 r ih heq

/-- The claim's integer-modulus form of the probe offset agrees with the
wraparound Nat form used throughout this development. -/
theorem int_off_form {cap i hm : Nat} (hhm : hm < cap) (_hi : i < cap) :
    (((i : Int) - (hm : Int)) % (cap : Int)).toNat = (i + cap - hm) % cap := by
  have h2 : ((i + cap - hm : Nat) : Int) = (i : Int) - hm + cap := by omega
  have h3 : ((i : Int) - hm) % cap = ((i + cap - hm : Nat) : Int) % cap := by
    rw [h2]
    have h4 : (i : Int) - hm + cap = (i : Int) - hm + cap * 1 := by ring
    rw [h4, Int.add_mul_emod_self_left]
  rw [h3, ← Int.natCast_mod, Int.toNat_natCast]

/-- C7.  In every state reachable from `new capacity` (capacity positive)
by completed inserts and deletes, every occupied slot at index `i` holding
a bucket with key `k` stores exactly the probe length recomputed from its
home index: `probe_length = ((i - hash(k) mod capacity) mod capacity) + 1`,
stated both in wraparound Nat arithmetic and with the claim's integer
modulus. -/
theorem c7_psl_invariant (h : Nat → Nat) (m : RobinHashMap) (hr : Reachable h m) :
    ∀ i, i < m.capacity → ∀ b, slotAt m.array i = some b →
      b.probe_length = (i + m.capacity - h b.key % m.capacity) % m.capacity + 1 ∧
        b.probe_length
          = (((i : Int) - (h b.key % m.capacity : Nat)) % (m.capacity : Int)).toNat + 1 := by
  intro i hi b hb
  obtain ⟨hlen, hcap, h1, h3, hdk⟩ := reachable_inv h m hr
  have hnat := h1 i hi b hb
  refine ⟨hnat, ?_⟩
  rw [int_off_form (Nat.mod_lt _ hcap) hi]
  exact hnat

/-- If some slot lies empty `d` steps ahead of the walk position, the
insert loop returns within `d + 1` iterations: every iteration either
returns or advances one slot, and swaps never change which slots are
empty. -/
theorem insertLoop_some_of_empty (h : Nat → Nat) :
    ∀ (d fuel : Nat) (m : RobinHashMap) (idx : Nat) (inc : Bucket),
      m.array.length = m.capacity → idx < m.capacity → d < m.capacity →
      slotAt m.array ((idx + d) % m.capacity) = none → d < fuel →
      (insertLoop h fuel idx inc m).isSome := by
  intro d
  induction d with
  | zero =>
    intro fuel m idx inc hlen hidx _ hempty hfuel
    obtain ⟨f, rfl⟩ : ∃ f, fuel = f + 1 := ⟨fuel - 1, by omega⟩
    rw [Nat.add_zero, Nat.mod_eq_of_lt hidx] at hempty
    rw [insertLoop_step_empty hempty]
    rfl
  | succ d ih =>
    intro fuel m idx inc hlen hidx hdcap hempty hfuel
    obtain ⟨f, rfl⟩ : ∃ f, fuel = f + 1 := ⟨fuel - 1, by omega⟩
    have hcap : 0 < m.capacity := by omega
    cases hs : slotAt m.array idx with
    | none =>
      rw [insertLoop_step_empty hs]
      rfl
    | some b =>
      have hpos1 : ((idx + 1) % m.capacity + d) % m.capacity
          = (idx + (d + 1)) % m.capacity := by
        rw [Nat.mod_add_mod]
        congr 1
        omega
      have hne : idx ≠ (idx + (d + 1)) % m.capacity :=
        fun hh => add_mod_ne hidx (by omega) hdcap hh.symm
      by_cases hk : b.key = inc.key
      · rw [insertLoop_step_match hs hk]
        rfl
      · by_cases hp : b.probe_length < inc.probe_length
        · rw [insertLoop_step_swap hs hk hp]
          refine ih f _ _ _ ?_ (Nat.mod_lt _ hcap) ?_ ?_ (by omega)
          · show (m.array.set idx (some inc)).length = m.capacity
            rw [List.length_set]
            exact hlen
          · show d < m.capacity
            omega
          · show slotAt (m.array.set idx (some inc))
              (((idx + 1) % m.capacity + d) % m.capacity) = none
            rw [hpos1, slotAt_set_ne _ _ hne]
            exact hempty
        · rw [insertLoop_step_skip hs hk hp]
          refine ih f m _ _ hlen (Nat.mod_lt _ hcap) (by omega) ?_ (by omega)
          rw [hpos1]
          exact hempty

/-- If the carried key is stored `bb.probe_length - inc.probe_length`
steps ahead in a table satisfying I1 and I3, the insert loop reaches it
(without displacing anything) in that many iterations and returns. -/
theorem insertLoop_some_of_present (h : Nat → Nat) :
    ∀ (fuel : Nat) (m : RobinHashMap) (idx : Nat) (inc : Bucket) (ss : Nat) (bb : Bucket),
      m.array.length = m.capacity → 0 < m.capacity →
      AI1 h m.capacity m.array → AI3 m.capacity m.array →
      idx < m.capacity → ss < m.capacity →
      slotAt m.array ss = some bb → bb.key = inc.key →
      1 ≤ inc.probe_length → inc.probe_length ≤ bb.probe_length →
      ss = (idx + (bb.probe_length - inc.probe_length)) % m.capacity →
      bb.probe_length - inc.probe_length < fuel →
      (insertLoop h fuel idx inc m).isSome := by
  intro fuel
  induction fuel with
  | zero =>
    intro m idx inc ss bb _ _ _ _ _ _ _ _ _ _ _ hfuel
    exact absurd hfuel (by omega)
  | succ f ih =>
    intro m idx inc ss bb hlen hcap h1 h3 hidx hss hbb hbk hinc1 hple hpos hfuel
    obtain ⟨br, hbr, hbrle⟩ :=
      chain_at h m.capacity m.array hcap h1 h3 hss hbb hidx hinc1 hple hpos
    by_cases hkeyb : br.key = inc.key
    · rw [insertLoop_step_match hbr hkeyb]
      rfl
    · have hnswap : ¬ br.probe_length < inc.probe_length := by omega
      rw [insertLoop_step_skip hbr hkeyb hnswap]
      have hlt : inc.probe_length < bb.probe_length := by
        by_cases hbe : bb.probe_length = inc.probe_length
        · exfalso
          rw [hbe, Nat.sub_self, Nat.add_zero, Nat.mod_eq_of_lt hidx] at hpos
          rw [hpos, hbr] at hbb
          injection hbb with h2
          subst h2
          exact hkeyb hbk
        · omega
      refine ih m _ _ ss bb hlen hcap h1 h3 (Nat.mod_lt _ hcap) hss hbb hbk ?_ ?_ ?_ ?_
      · show 1 ≤ inc.probe_length + 1
        omega
      · show inc.probe_length + 1 ≤ bb.probe_length
        omega
      · show ss = ((idx + 1) % m.capacity
          + (bb.probe_length - (inc.probe_length + 1))) % m.capacity
        rw [Nat.mod_add_mod, hpos]
        congr 1
        omega
      · show bb.probe_length - (inc.probe_length + 1) < f
        omega

/-- C8 counterexample.  In the full (no empty slot) capacity-3 state `mC8`
the inserted key 0 is already present, satisfying the claim's hypothesis,
yet the insert loop does not return within `capacity` iterations: the
state violates the Robin Hood ordering (unreachable), so the walk displaces
a resident before reaching key 0 and keeps probing past `capacity` steps. -/
theorem c8_counterexample :
    (∃ i, i < mC8.capacity ∧ ∃ b, slotAt mC8.array i = some b ∧ b.key = 0) ∧
      (∀ j, j < mC8.capacity → slotAt mC8.array j ≠ none) ∧
      insert id mC8 0 99 mC8.capacity = none := by
  refine ⟨⟨2, by decide, ⟨0, 13, 3⟩, by decide, rfl⟩, ?_, by decide⟩
  intro j hj
  have hj3 : j < 3 := hj
  interval_cases j <;> decide

/-- C8 (amended).  If at least one slot is empty — in any map state with a
well-sized array — or the map state is reachable and the inserted key is
present, then `insert` returns within at most `capacity` iterations of its
probe loop.  (As stated over arbitrary states the present-key case is
false: see `c8_counterexample`.) -/
theorem c8_amended (h : Nat → Nat) (m : RobinHashMap) (k v : Nat)
    (hlen : m.array.length = m.capacity) (hcap : 0 < m.capacity)
    (hcase : (∃ j, j < m.capacity ∧ slotAt m.array j = none) ∨
      (Reachable h m ∧ ∃ i, i < m.capacity ∧ ∃ b, slotAt m.array i = some b ∧ b.key = k)) :
    (insert h m k v m.capacity).isSome := by
  have hhome : h k % m.capacity < m.capacity := Nat.mod_lt _ hcap
  rcases hcase with ⟨j, hj, hjnone⟩ | ⟨hr, ss, hss, bb, hbb, hbk⟩
  · rw [insert]
    refine insertLoop_some_of_empty h ((j + m.capacity - h k % m.capacity) % m.capacity)
      m.capacity m (h k % m.capacity) _ hlen hhome (Nat.mod_lt _ hcap) ?_ (Nat.mod_lt _ hcap)
    rw [off_elim hhome hj]
    exact hjnone
  · obtain ⟨_, _, h1, h3, _⟩ := reachable_inv h m hr
    rw [insert]
    have hb1 := h1 ss hss bb hbb
    rw [hbk] at hb1
    refine insertLoop_some_of_present h m.capacity m (h k % m.capacity) ⟨k, v, 1⟩ ss bb
      hlen hcap h1 h3 hhome hss hbb hbk ?_ ?_ ?_ ?_
    · show (1 : Nat) ≤ 1
      omega
    · show 1 ≤ bb.probe_length
      omega
    · show ss = (h k % m.capacity + (bb.probe_length - 1)) % m.capacity
      rw [show bb.probe_length - 1
        = (ss + m.capacity - h k % m.capacity) % m.capacity from by omega]
      exact (off_elim hhome hss).symm
    · show bb.probe_length - 1 < m.capacity
      have := psl_le_cap hcap h1 hss hbb
      omega

/-- Witness for C8 (amended) at a concrete input: a capacity-2 map with an
empty slot. -/
theorem c8_witness : (insert id (new 2) 5 7 (new 2).capacity).isSome :=
  c8_amended id (new 2) 5 7 (by decide) (by decide) (Or.inl ⟨0, by decide, by decide⟩)

/-- Witness for C7 at a concrete input: the reachable state `mBug` and its
occupied slot 2. -/
theorem c7_witness :
    (⟨16, 30, 3⟩ : Bucket).probe_length
        = (2 + mBug.capacity - id (⟨16, 30, 3⟩ : Bucket).key % mBug.capacity)
            % mBug.capacity + 1 ∧
      (⟨16, 30, 3⟩ : Bucket).probe_length
        = ((((2 : Nat) : Int) - ((id (⟨16, 30, 3⟩ : Bucket).key % mBug.capacity : Nat) : Int))
            % ((mBug.capacity : Nat) : Int)).toNat + 1 :=
  c7_psl_invariant id mBug reachable_mBug 2 (by decide) ⟨16, 30, 3⟩ (by decide)

end RobinHood
